import Mathlib

/-!
Verification of the rugmat core against its specification.

The development has two layers, mirroring the structure of the code:

* a representation layer (`MFloat`, `PMat`): the internal MPFR float layout
  (precision, sign, exponent, 64-bit limbs) as read and written by
  `float_serializer.rs` and `rugmat_io.rs`, with byte streams modelled as
  `List Nat` of values `< 256`;
* a numeric layer (`QF`, `QMat`): matrix and solver code from `rugmat.rs`
  with arbitrary-precision float values modelled as exact rationals extended
  with a non-finite element `none` (MPFR NaN/Inf).  Ring operations are
  exact; `sqrt`, whose result MPFR rounds, is a function parameter.
-/

namespace Rugmat

/-! ### Little-endian byte encodings (`to_le_bytes` / `from_le_bytes`) -/

/-- Little-endian byte encoding of a natural number on `k` bytes, the model of
Rust's `to_le_bytes` applied to the value reduced mod `2 ^ (8 * k)`. -/
def leBytes : Nat → Nat → List Nat
  | 0, _ => []
  | k + 1, n => n % 256 :: leBytes k (n / 256)

/-- Value of a little-endian byte list, the model of `from_le_bytes`. -/
def fromLE (bs : List Nat) : Nat :=
  bs.foldr (fun b acc => b + 256 * acc) 0

theorem length_leBytes (k n : Nat) : (leBytes k n).length = k := by
  induction k generalizing n with
  | zero => rfl
  | succ k ih => simp [leBytes, ih]

theorem fromLE_nil : fromLE [] = 0 := rfl

theorem fromLE_cons (b : Nat) (bs : List Nat) :
    fromLE (b :: bs) = b + 256 * fromLE bs := rfl

theorem fromLE_leBytes (k n : Nat) (h : n < 256 ^ k) :
    fromLE (leBytes k n) = n := by
  induction k generalizing n with
  | zero =>
    simp only [Nat.pow_zero, Nat.lt_one_iff] at h
    simp [leBytes, fromLE, h]
  | succ k ih =>
    have hdiv : n / 256 < 256 ^ k := by
      rw [Nat.div_lt_iff_lt_mul (by norm_num)]
      calc n < 256 ^ (k + 1) := h
        _ = 256 ^ k * 256 := by ring
    rw [leBytes, fromLE_cons, ih _ hdiv]
    omega

/-- Models `read_exact` of `k` bytes from an in-memory stream: returns the
bytes read and the rest of the stream, failing on a truncated stream. -/
def readN (k : Nat) (bs : List Nat) : Option (List Nat × List Nat) :=
  if k ≤ bs.length then some (bs.take k, bs.drop k) else none

theorem readN_append (k : Nat) (l rest : List Nat) (h : l.length = k) :
    readN k (l ++ rest) = some (l, rest) := by
  subst h
  simp [readN, List.take_left, List.drop_left]

/-! ### The float codec (`float_serializer.rs`) -/

/-- Shallow embedding of an MPFR float as accessed by `write_float` and
`read_float`: precision in bits, sign, base-2 exponent, and the significand
limbs (least-significant limb first, each a 64-bit word). -/
structure MFloat where
  prec : Nat
  neg : Bool
  exp : Int
  limbs : List Nat
  deriving DecidableEq

/-- Representability bounds used implicitly by the serializer: the precision
fits the `u32` it is stored in, the limb count is `ceil(prec / 64)` (the MPFR
invariant), limbs are 64-bit words and the exponent fits an `i64`. -/
def wfMFloat (f : MFloat) : Prop :=
  f.prec < 2 ^ 32 ∧
  f.limbs.length = (f.prec + 63) / 64 ∧
  (∀ l ∈ f.limbs, l < 2 ^ 64) ∧
  -(2 ^ 63) ≤ f.exp ∧ f.exp < 2 ^ 63

instance (f : MFloat) : Decidable (wfMFloat f) := by
  unfold wfMFloat; infer_instance

/-- Two's-complement little-endian byte encoding of an `i64` value. -/
def i64Bytes (e : Int) : List Nat := leBytes 8 (e % (2 ^ 64 : Int)).toNat

/-- Decode an `i64` from the value of its little-endian bytes. -/
def i64OfNat (n : Nat) : Int :=
  if n < 2 ^ 63 then (n : Int) else (n : Int) - 2 ^ 64

/-- Model of `write_float`: 4-byte little-endian precision, 1 sign byte
(`1` or `-1` as `i8`), 8-byte little-endian exponent, 8-byte little-endian
limb count `ceil(prec / 64)`, then that many 8-byte little-endian limbs. -/
def writeFloat (f : MFloat) : List Nat :=
  leBytes 4 f.prec ++ ([if f.neg then 255 else 1] ++ (i64Bytes f.exp ++
    (leBytes 8 ((f.prec + 63) / 64) ++
      ((f.limbs.take ((f.prec + 63) / 64)).map (leBytes 8)).flatten)))

/-- Model of the limb-reading loop of `read_float`: reads `n` 8-byte
little-endian limbs, failing on truncation. -/
def readLimbs : Nat → List Nat → Option (List Nat × List Nat)
  | 0, bs => some ([], bs)
  | n + 1, bs =>
    (readN 8 bs).bind fun wr =>
      (readLimbs n wr.2).bind fun lr =>
        some (fromLE wr.1 :: lr.1, lr.2)

/-- Model of `read_float`: parses precision, sign, exponent, limb count and
limbs, allocates a fresh float at the stored precision, installs exponent and
limbs, and negates if the sign byte is negative. -/
def readFloat (bs : List Nat) : Option (MFloat × List Nat) :=
  (readN 4 bs).bind fun pr =>
    (readN 1 pr.2).bind fun sr =>
      (readN 8 sr.2).bind fun er =>
        (readN 8 er.2).bind fun nr =>
          (readLimbs (fromLE nr.1) nr.2).bind fun lr =>
            some (⟨fromLE pr.1, decide (128 ≤ sr.1.headD 0),
              i64OfNat (fromLE er.1), lr.1⟩, lr.2)

theorem readN_leBytes (k n : Nat) (rest : List Nat) :
    readN k (leBytes k n ++ rest) = some (leBytes k n, rest) :=
  readN_append k (leBytes k n) rest (length_leBytes k n)

theorem readN_one (a : Nat) (rest : List Nat) :
    readN 1 (a :: rest) = some ([a], rest) := by
  simp [readN]

theorem readLimbs_append (ls : List Nat) (rest : List Nat)
    (h : ∀ l ∈ ls, l < 2 ^ 64) :
    readLimbs ls.length ((ls.map (leBytes 8)).flatten ++ rest) = some (ls, rest) := by
  induction ls with
  | nil => simp [readLimbs]
  | cons a ls ih =>
    have ha : a < 2 ^ 64 := h a (List.mem_cons_self a ls)
    have hrest : ∀ l ∈ ls, l < 2 ^ 64 := fun l hl => h l (List.mem_cons_of_mem a hl)
    simp only [List.map_cons, List.flatten_cons, List.length_cons, List.append_assoc]
    rw [readLimbs, readN_leBytes 8 a, Option.some_bind, ih hrest]
    simp [fromLE_leBytes 8 a (by norm_num at ha ⊢; omega)]

theorem readLimbs_exact (ls : List Nat) (h : ∀ l ∈ ls, l < 2 ^ 64) :
    readLimbs ls.length ((ls.map (leBytes 8)).flatten) = some (ls, []) := by
  have := readLimbs_append ls [] h
  rwa [List.append_nil] at this

theorem i64OfNat_roundtrip (e : Int) (h1 : -(2 ^ 63) ≤ e) (h2 : e < 2 ^ 63) :
    i64OfNat (e % (2 ^ 64 : Int)).toNat = e := by
  have e64 : (2 ^ 64 : Int) = 18446744073709551616 := by norm_num
  have e63 : (2 ^ 63 : Int) = 9223372036854775808 := by norm_num
  have e63n : (2 ^ 63 : Nat) = 9223372036854775808 := by norm_num
  unfold i64OfNat
  rw [e64, e63n]
  rw [e63] at h1 h2
  split <;> omega

/-- C1: the float codec round-trips exactly: for every representable float
(any precision fitting `u32`, any sign, any `i64` exponent, limb count
`ceil(prec / 64)`, including precisions not divisible by 64), `read_float`
applied to the output of `write_float` returns a float with identical
precision, sign, exponent and significand limbs, consuming the whole
stream. -/
theorem c1_float_codec_round_trip (f : MFloat) (h : wfMFloat f) :
    readFloat (writeFloat f) = some (f, []) := by
  obtain ⟨hp, hl, hlb, he1, he2⟩ := h
  have hprec : fromLE (leBytes 4 f.prec) = f.prec := by
    apply fromLE_leBytes; norm_num at hp ⊢; omega
  have hexp : i64OfNat (fromLE (i64Bytes f.exp)) = f.exp := by
    unfold i64Bytes
    rw [fromLE_leBytes 8 _ (by
      have hnn : 0 ≤ f.exp % (2 ^ 64 : Int) := Int.emod_nonneg _ (by norm_num)
      have hlt : f.exp % (2 ^ 64 : Int) < 2 ^ 64 := Int.emod_lt_of_pos _ (by norm_num)
      have hx : ((f.exp % (2 ^ 64 : Int)).toNat : Int) = f.exp % (2 ^ 64 : Int) :=
        Int.toNat_of_nonneg hnn
      norm_num at hlt ⊢
      omega)]
    exact i64OfNat_roundtrip f.exp he1 he2
  have hsign : decide (128 ≤ ([if f.neg then 255 else 1] : List Nat).headD 0) = f.neg := by
    cases f.neg <;> rfl
  have hcount : fromLE (leBytes 8 (f.limbs.length)) = f.limbs.length := by
    apply fromLE_leBytes
    rw [hl]
    have : (f.prec + 63) / 64 ≤ f.prec + 63 := Nat.div_le_self _ _
    norm_num at hp ⊢
    omega
  have htake : f.limbs.take ((f.prec + 63) / 64) = f.limbs := by
    rw [← hl]; exact List.take_length f.limbs
  unfold writeFloat readFloat
  rw [htake, ← hl]
  rw [readN_leBytes 4 f.prec, Option.some_bind]
  rw [List.singleton_append, readN_one, Option.some_bind]
  rw [show i64Bytes f.exp = leBytes 8 (f.exp % (2 ^ 64 : Int)).toNat from rfl]
  rw [readN_leBytes 8 _, Option.some_bind]
  rw [readN_leBytes 8 _, Option.some_bind]
  rw [show fromLE (leBytes 8 (f.exp % (2 ^ 64 : Int)).toNat) = fromLE (i64Bytes f.exp) from rfl]
  rw [hcount, readLimbs_exact f.limbs hlb, Option.some_bind]
  rw [hprec, hexp, hsign]

/-- Witness for C1 at a concrete float: precision 65 (not divisible by 64,
forcing a padding limb), negative sign, negative exponent. -/
theorem c1_float_codec_round_trip_witness :
    wfMFloat ⟨65, true, -3, [123, 2 ^ 63 + 5]⟩ ∧
      readFloat (writeFloat ⟨65, true, -3, [123, 2 ^ 63 + 5]⟩) =
        some (⟨65, true, -3, [123, 2 ^ 63 + 5]⟩, []) :=
  ⟨by decide, c1_float_codec_round_trip _ (by decide)⟩

/-! ### The persistence layer (`rugmat_io.rs`) -/

/-- Value of a limb sequence (least-significant limb first) as one natural
number: the integer significand the limbs represent. -/
def limbVal (ls : List Nat) : Nat := ls.foldr (fun l acc => l + 2 ^ 64 * acc) 0

/-- Base-256 digit expansion, least-significant digit first, with explicit
fuel so that the kernel can evaluate it. -/
def digits256Aux : Nat → Nat → List Nat
  | 0, _ => []
  | fuel + 1, n => if n = 0 then [] else n % 256 :: digits256Aux fuel (n / 256)

/-- Base-256 digit expansion, least-significant digit first. -/
def digits256 (n : Nat) : List Nat := digits256Aux n n

theorem digits256Aux_eq (fuel n : Nat) (h : n ≤ fuel) :
    digits256Aux fuel n = Nat.digits 256 n := by
  induction fuel generalizing n with
  | zero =>
    have : n = 0 := Nat.le_zero.mp h
    subst this
    simp [digits256Aux]
  | succ fuel ih =>
    by_cases h0 : n = 0
    · subst h0; simp [digits256Aux]
    · rw [digits256Aux, if_neg h0,
        Nat.digits_def' (by norm_num : 1 < 256) (Nat.pos_of_ne_zero h0),
        ih (n / 256) (by
          have := Nat.div_lt_self (Nat.pos_of_ne_zero h0) (by norm_num : 1 < 256)
          omega)]

theorem digits256_eq (n : Nat) : digits256 n = Nat.digits 256 n :=
  digits256Aux_eq n n le_rfl

/-- Modelled from the spec: the `to_digits` conversion of the external
arbitrary-precision primitive (`rug`, outside this repository) as used by
`save_to_file`.  It returns the exponent together with the base-256 digit
string of the significand, most-significant digit first.  `save_to_file`
keeps only the digit string (component `.1`) and discards the exponent
(component `.0`). -/
def toDigits (f : MFloat) : Int × List Nat :=
  (f.exp, (digits256 (limbVal f.limbs)).reverse)

/-- Modelled from the spec: `Parse::from_digits`, parsing a base-256
most-significant-first digit string back into a number (external
primitive). -/
def fromDigits (bs : List Nat) : Nat := bs.foldl (fun acc d => acc * 256 + d) 0

/-- Limb decomposition of a natural number on `nl` 64-bit limbs,
least-significant limb first. -/
def limbsOfNat (nl n : Nat) : List Nat :=
  (List.range nl).map (fun i => n / 2 ^ (64 * i) % 2 ^ 64)

/-- Base-2 logarithm with explicit fuel so that the kernel can evaluate
it; agrees with `Nat.log2` on every input. -/
def log2Fuel : Nat → Nat → Nat
  | 0, _ => 0
  | fuel + 1, n => if 2 ≤ n then log2Fuel fuel (n / 2) + 1 else 0

/-- Modelled from the spec: `Float::with_val(prec, n)`, construction of a
float of precision `prec` from a natural number (the external
arbitrary-precision primitive of §1).  Rounds toward zero where `prec` bits
do not suffice; the claims proved depend only on the precision of the
result. -/
def withVal (p : Nat) (n : Nat) : MFloat :=
  let nl := (p + 63) / 64
  if n = 0 then ⟨p, false, 0, List.replicate nl 0⟩
  else
    let b := log2Fuel n n + 1
    let m := if b ≤ p then n else n >>> (b - p)
    ⟨p, false, (b : Int), limbsOfNat nl (m <<< (64 * nl - min b p))⟩

/-- The matrix representation persisted by `rugmat_io.rs`: a flat
column-major element list with its dimensions. -/
structure PMat where
  data : List MFloat
  rows : Nat
  cols : Nat
  deriving DecidableEq

/-- The bytes of the magic header `b"RUGMAT"`. -/
def rugmatMagic : List Nat := [82, 85, 71, 77, 65, 84]

/-- Modelled from the spec: the 256-bit checksum (BLAKE3 in the source) is an
external collaborator (§1); modelled as an executable 32-byte digest of the
absorbed byte stream.  `save_to_file` and `load_from_file` feed it the same
`(entry_len, entry_bytes)` stream, which is all the proved claims use. -/
def hash256 (bs : List Nat) : List Nat :=
  leBytes 32
    (bs.foldl (fun h b => (h * 1099511628211 + b + 101) % 2 ^ 255) 14695981039346656037)

/-- The per-entry byte stream of `save_to_file`: for each value in storage
order, the 8-byte little-endian length of its digit string followed by the
digit string.  This is also exactly the stream fed to the checksum hasher. -/
def saveBody (data : List MFloat) : List Nat :=
  (data.map (fun f => leBytes 8 (toDigits f).2.length ++ (toDigits f).2)).flatten

/-- Model of `save_to_file` (the byte stream written): magic, version 1, rows
and cols as little-endian `u64`, the precision of element 0 as a
little-endian `u32`, the entry stream, and the 32-byte checksum of the entry
stream.  Returns `none` when the matrix has no elements, where the source
indexes `self.data[0]` unconditionally and panics. -/
def saveToFile (M : PMat) : Option (List Nat) :=
  match M.data with
  | [] => none
  | f0 :: _ =>
    some (rugmatMagic ++ ([1] ++ (leBytes 8 M.rows ++ (leBytes 8 M.cols ++
      (leBytes 4 f0.prec ++ (saveBody M.data ++ hash256 (saveBody M.data)))))))

/-- The recoverable error kinds of `load_from_file`: `eof` models a failed
`read_exact` on a truncated stream, the other three the explicit
`InvalidData` rejections. -/
inductive LoadErr where
  | eof
  | badMagic
  | unsupportedVersion
  | checksumMismatch
  deriving DecidableEq

instance : DecidableEq (Except LoadErr PMat) := fun x y =>
  match x, y with
  | .error a, .error b =>
    if h : a = b then isTrue (by rw [h]) else isFalse (by intro hc; cases hc; exact h rfl)
  | .error _, .ok _ => isFalse (by intro h; cases h)
  | .ok _, .error _ => isFalse (by intro h; cases h)
  | .ok a, .ok b =>
    if h : a = b then isTrue (by rw [h]) else isFalse (by intro hc; cases hc; exact h rfl)

/-- Helper modelling the `?` propagation of a failed `read_exact` inside
`load_from_file`. -/
def orEof {α : Type} (x : Option α) (k : α → Except LoadErr PMat) : Except LoadErr PMat :=
  match x with
  | none => Except.error LoadErr.eof
  | some v => k v

theorem orEof_some {α : Type} (v : α) (k : α → Except LoadErr PMat) :
    orEof (some v) k = k v := rfl

/-- The entry-parsing loop of `load_from_file`: reads `n` entries of
`(len : u64, bytes[len])`, building each element at the stored precision and
accumulating the byte stream fed to the checksum hasher.  Returns the parsed
elements, the absorbed hash stream, and the rest of the input. -/
def parseEntries (prec : Nat) : Nat → List Nat → Option (List MFloat × List Nat × List Nat)
  | 0, bs => some ([], [], bs)
  | n + 1, bs =>
    (readN 8 bs).bind fun lb =>
      (readN (fromLE lb.1) lb.2).bind fun db =>
        (parseEntries prec n db.2).bind fun rest =>
          some (withVal prec (fromDigits db.1) :: rest.1, lb.1 ++ (db.1 ++ rest.2.1), rest.2.2)

/-- Model of `load_from_file`: checks magic and version, reads dimensions and
the stored precision, parses `rows * cols` entries while hashing them, then
reads the 32-byte trailer and compares checksums. -/
def loadFromFile (bs : List Nat) : Except LoadErr PMat :=
  orEof (readN 6 bs) fun mg =>
    if mg.1 ≠ rugmatMagic then .error .badMagic
    else
      orEof (readN 1 mg.2) fun vr =>
        if vr.1 ≠ [1] then .error .unsupportedVersion
        else
          orEof (readN 8 vr.2) fun rb =>
            orEof (readN 8 rb.2) fun cb =>
              orEof (readN 4 cb.2) fun pb =>
                orEof (parseEntries (fromLE pb.1) (fromLE rb.1 * fromLE cb.1) pb.2) fun pe =>
                  orEof (readN 32 pe.2.2) fun ck =>
                    if hash256 pe.2.1 ≠ ck.1 then .error .checksumMismatch
                    else .ok ⟨pe.1, fromLE rb.1, fromLE cb.1⟩

/-- Representability bounds for a persisted matrix: a nonempty element list
matching the dimensions, dimensions fitting `u64`, element-0 precision
fitting the `u32` it is stored in, and limbs that are 64-bit words in
bounded number. -/
def wfPMat (M : PMat) : Prop :=
  M.data ≠ [] ∧ M.data.length = M.rows * M.cols ∧ M.rows < 2 ^ 64 ∧ M.cols < 2 ^ 64 ∧
    (M.data.headD ⟨0, false, 0, []⟩).prec < 2 ^ 32 ∧
    ∀ f ∈ M.data, f.limbs.length < 2 ^ 32 ∧ ∀ l ∈ f.limbs, l < 2 ^ 64

instance (M : PMat) : Decidable (wfPMat M) := by
  unfold wfPMat; infer_instance

theorem limbVal_lt (ls : List Nat) (h : ∀ l ∈ ls, l < 2 ^ 64) :
    limbVal ls < 2 ^ (64 * ls.length) := by
  induction ls with
  | nil => simp [limbVal]
  | cons a ls ih =>
    have ha := h a (List.mem_cons_self a ls)
    have hv := ih (fun l hl => h l (List.mem_cons_of_mem a hl))
    have hval : limbVal (a :: ls) = a + 2 ^ 64 * limbVal ls := rfl
    rw [hval, List.length_cons]
    calc a + 2 ^ 64 * limbVal ls < 2 ^ 64 * (limbVal ls + 1) := by
          have h64 : (2 : Nat) ^ 64 = 18446744073709551616 := by norm_num
          rw [h64] at ha ⊢
          omega
      _ ≤ 2 ^ 64 * 2 ^ (64 * ls.length) := Nat.mul_le_mul_left _ hv
      _ = 2 ^ (64 * (ls.length + 1)) := by rw [← pow_add]; congr 1; ring

theorem digits_len_le_of_lt (n k : Nat) (h : n < 256 ^ k) :
    (Nat.digits 256 n).length ≤ k := by
  rcases Nat.eq_zero_or_pos n with h0 | h0
  · subst h0; simp
  · rw [Nat.digits_len 256 n (by norm_num) (Nat.pos_iff_ne_zero.mp h0)]
    have := Nat.log_lt_of_lt_pow (Nat.pos_iff_ne_zero.mp h0) h
    omega

theorem entryLen_lt (f : MFloat) (h1 : f.limbs.length < 2 ^ 32)
    (h2 : ∀ l ∈ f.limbs, l < 2 ^ 64) : (toDigits f).2.length < 2 ^ 64 := by
  have hlv := limbVal_lt f.limbs h2
  have h256 : limbVal f.limbs < 256 ^ (8 * f.limbs.length) := by
    have he : (256 : Nat) ^ (8 * f.limbs.length) = 2 ^ (64 * f.limbs.length) := by
      rw [show (256 : Nat) = 2 ^ 8 from rfl, ← pow_mul]
      congr 1
      ring
    rw [he]
    exact hlv
  have hlen : (Nat.digits 256 (limbVal f.limbs)).length ≤ 8 * f.limbs.length :=
    digits_len_le_of_lt _ _ h256
  have heq : (toDigits f).2.length = (Nat.digits 256 (limbVal f.limbs)).length := by
    simp [toDigits, digits256_eq]
  norm_num at h1 ⊢
  omega

theorem parseEntries_saveBody (prec : Nat) (data : List MFloat) (rest : List Nat)
    (h : ∀ f ∈ data, (toDigits f).2.length < 2 ^ 64) :
    parseEntries prec data.length (saveBody data ++ rest) =
      some (data.map (fun f => withVal prec (fromDigits (toDigits f).2)),
        saveBody data, rest) := by
  induction data with
  | nil => simp [parseEntries, saveBody]
  | cons f fs ih =>
    have hf := h f (List.mem_cons_self f fs)
    have hfs : ∀ g ∈ fs, (toDigits g).2.length < 2 ^ 64 :=
      fun g hg => h g (List.mem_cons_of_mem f hg)
    have hbody : saveBody (f :: fs) =
        (leBytes 8 (toDigits f).2.length ++ (toDigits f).2) ++ saveBody fs := by
      simp [saveBody]
    rw [List.length_cons, hbody]
    simp only [parseEntries]
    rw [List.append_assoc, List.append_assoc]
    rw [readN_leBytes 8 _, Option.some_bind]
    rw [fromLE_leBytes 8 _ (by norm_num at hf ⊢; omega)]
    rw [readN_append _ (toDigits f).2 _ rfl, Option.some_bind]
    rw [ih hfs, Option.some_bind]
    simp [hbody, List.append_assoc]

/-- The header-plus-entries prefix of the file written by `save_to_file`,
everything before the checksum trailer. -/
def savePrefix (M : PMat) : List Nat :=
  rugmatMagic ++ ([1] ++ (leBytes 8 M.rows ++ (leBytes 8 M.cols ++
    (leBytes 4 (M.data.headD ⟨0, false, 0, []⟩).prec ++ saveBody M.data))))

theorem saveToFile_eq (M : PMat) (h : M.data ≠ []) :
    saveToFile M = some (savePrefix M ++ hash256 (saveBody M.data)) := by
  match hd : M.data with
  | [] => exact absurd hd h
  | f0 :: fs =>
    unfold saveToFile savePrefix
    rw [hd]
    simp [List.append_assoc]

theorem hash256_length (bs : List Nat) : (hash256 bs).length = 32 :=
  length_leBytes 32 _

theorem readN_exact (k : Nat) (l : List Nat) (h : l.length = k) :
    readN k l = some (l, []) := by
  have := readN_append k l [] h
  rwa [List.append_nil] at this

theorem loadFromFile_savePrefix (M : PMat) (hwf : wfPMat M) (trailer : List Nat)
    (htl : trailer.length = 32) :
    loadFromFile (savePrefix M ++ trailer) =
      if hash256 (saveBody M.data) ≠ trailer then Except.error LoadErr.checksumMismatch
      else Except.ok ⟨M.data.map (fun f =>
        withVal (M.data.headD ⟨0, false, 0, []⟩).prec (fromDigits (toDigits f).2)),
        M.rows, M.cols⟩ := by
  obtain ⟨hne, hlen, hrows, hcols, hprec, hel⟩ := hwf
  unfold savePrefix loadFromFile
  rw [List.append_assoc, List.append_assoc, List.append_assoc, List.append_assoc,
    List.append_assoc]
  rw [readN_append 6 rugmatMagic _ rfl, orEof_some]
  rw [if_neg (fun hx => hx rfl)]
  rw [List.singleton_append, readN_one, orEof_some]
  rw [if_neg (fun hx => hx rfl)]
  rw [readN_leBytes 8 _, orEof_some]
  rw [readN_leBytes 8 _, orEof_some]
  rw [readN_leBytes 4 _, orEof_some]
  rw [fromLE_leBytes 8 M.rows (by norm_num at hrows ⊢; omega)]
  rw [fromLE_leBytes 8 M.cols (by norm_num at hcols ⊢; omega)]
  rw [fromLE_leBytes 4 _ (by norm_num at hprec ⊢; omega)]
  rw [← hlen]
  rw [parseEntries_saveBody _ M.data trailer
    (fun f hf => entryLen_lt f (hel f hf).1 (hel f hf).2), orEof_some]
  rw [readN_exact 32 trailer htl, orEof_some]

theorem withVal_prec (p n : Nat) : (withVal p n).prec = p := by
  unfold withVal
  by_cases h : n = 0 <;> simp [h]

/-- Concrete floats and matrices used as failing inputs: `floatOne64` and
`floatTwo64` are the values 1 and 2 at precision 64 (same significand limb,
different exponent). -/
def floatOne64 : MFloat := ⟨64, false, 1, [2 ^ 63]⟩

def floatTwo64 : MFloat := ⟨64, false, 2, [2 ^ 63]⟩

def onePMat : PMat := ⟨[floatOne64], 1, 1⟩

def twoPMat : PMat := ⟨[floatTwo64], 1, 1⟩

/-- A 1-row, 2-column matrix whose two elements carry different precisions
(64 and 128 bits). -/
def mixedPrecPMat : PMat := ⟨[floatOne64, ⟨128, false, 1, [0, 2 ^ 63]⟩], 1, 2⟩

/-- C2: `save_to_file` discards the exponent component of `to_digits`
(only `.1` is written), so the distinct matrices `[[1]]` and `[[2]]` —
same significand limbs, different exponents — serialize to byte-identical
files.  Consequently no decoder, `load_from_file` included, can recover
both, and the persistence round-trip does not reproduce values (third
conjunct: the reloaded `[[1]]` differs from the original). -/
theorem c2_persistence_round_trip_fails :
    (saveToFile onePMat = saveToFile twoPMat ∧ onePMat ≠ twoPMat) ∧
    (∀ dec : List Nat → PMat,
      ¬(dec ((saveToFile onePMat).getD []) = onePMat ∧
        dec ((saveToFile twoPMat).getD []) = twoPMat)) ∧
    loadFromFile ((saveToFile onePMat).getD []) ≠ Except.ok onePMat := by
  refine ⟨by decide, ?_, by decide⟩
  intro dec ⟨h1, h2⟩
  have hsame : (saveToFile onePMat).getD [] = (saveToFile twoPMat).getD [] := by decide
  rw [hsame, h2] at h1
  exact absurd h1 (by decide)

/-- Modelled from the spec: the §6 file layout as the claim states it —
magic, version, rows and cols as little-endian `u64`, then for each value
`entry_len : u64` followed by the §4.1 Float-Codec (`write_float`) encoding
of the value, then a 32-byte checksum over the `(entry_len, entry_bytes)`
pairs, and no other fields.  Written from the spec's words, to be compared
with `saveToFile`. -/
def specSaveBytes (M : PMat) : List Nat :=
  rugmatMagic ++ ([1] ++ (leBytes 8 M.rows ++ (leBytes 8 M.cols ++
    ((M.data.map (fun f => leBytes 8 (writeFloat f).length ++ writeFloat f)).flatten ++
      hash256 ((M.data.map (fun f =>
        leBytes 8 (writeFloat f).length ++ writeFloat f)).flatten)))))

/-- C3: the file `save_to_file` actually writes differs from the layout the
claim describes: the code inserts a `u32` precision field after `cols` and
serializes entries as `to_digits` digit strings rather than `write_float`
codec bytes. -/
theorem c3_layout_differs_from_spec :
    (saveToFile onePMat).isSome = true ∧
      saveToFile onePMat ≠ some (specSaveBytes onePMat) := by
  constructor
  · decide
  · decide

/-- Boolean test for a rejected load, used to state that truncation always
yields a recoverable error (never a parsed matrix, never a panic). -/
def isLoadError : Except LoadErr PMat → Bool
  | .error _ => true
  | .ok _ => false

/-- C7: `load_from_file` rejects a wrong 6-byte magic with the bad-magic
error, a version byte other than 1 with the unsupported-version error, and
— after parsing the whole entry stream — a 32-byte trailer that differs
from the recomputed hash with the checksum-mismatch error; truncating the
file of a saved 1-by-1 matrix at any point yields a recoverable error, not
a parsed matrix. -/
theorem c7_load_rejections :
    (∀ m rest : List Nat, m.length = 6 → m ≠ rugmatMagic →
      loadFromFile (m ++ rest) = Except.error LoadErr.badMagic) ∧
    (∀ (v : Nat) (rest : List Nat), v ≠ 1 →
      loadFromFile (rugmatMagic ++ (v :: rest)) =
        Except.error LoadErr.unsupportedVersion) ∧
    (∀ M : PMat, wfPMat M → ∀ trailer : List Nat, trailer.length = 32 →
      trailer ≠ hash256 (saveBody M.data) →
      loadFromFile (savePrefix M ++ trailer) =
        Except.error LoadErr.checksumMismatch) ∧
    (∀ k, k < 75 →
      isLoadError (loadFromFile (((saveToFile onePMat).getD []).take k)) = true) := by
  refine ⟨?_, ?_, ?_, by decide⟩
  · intro m rest h6 hm
    unfold loadFromFile
    rw [readN_append 6 m rest h6, orEof_some, if_pos hm]
  · intro v rest hv
    unfold loadFromFile
    rw [readN_append 6 rugmatMagic _ rfl, orEof_some, if_neg (fun hx => hx rfl)]
    rw [readN_one, orEof_some, if_pos (by simpa using hv)]
  · intro M hwf trailer htl hne
    rw [loadFromFile_savePrefix M hwf trailer htl, if_pos (Ne.symm hne)]

/-- Witness for C7 at concrete inputs: an all-zero magic, version byte 2,
and an all-zero checksum trailer on an otherwise valid file. -/
theorem c7_load_rejections_witness :
    loadFromFile ([0, 0, 0, 0, 0, 0] ++ []) = Except.error LoadErr.badMagic ∧
    loadFromFile (rugmatMagic ++ (2 :: [])) =
      Except.error LoadErr.unsupportedVersion ∧
    loadFromFile (savePrefix onePMat ++ List.replicate 32 0) =
      Except.error LoadErr.checksumMismatch :=
  ⟨c7_load_rejections.1 _ _ (by decide) (by decide),
   c7_load_rejections.2.1 2 [] (by decide),
   c7_load_rejections.2.2.1 onePMat (by decide) _ (by decide) (by decide)⟩

/-- C10: the persistence layer quantizes to one precision.  `save_to_file`
records only element 0's precision (and fails — models the `data[0]` panic —
on an empty matrix); reloading a saved matrix succeeds and rebuilds every
element at that single stored precision, whatever precisions the elements
carried. -/
theorem c10_single_precision_persistence (M : PMat) :
    (M.data = [] → saveToFile M = none) ∧
    (wfPMat M → ∀ bs, saveToFile M = some bs →
      ∃ M2 : PMat, loadFromFile bs = Except.ok M2 ∧ M2.rows = M.rows ∧
        M2.cols = M.cols ∧ M2.data.length = M.data.length ∧
        ∀ g ∈ M2.data, g.prec = (M.data.headD ⟨0, false, 0, []⟩).prec) := by
  constructor
  · intro h
    unfold saveToFile
    rw [h]
  · intro hwf bs hbs
    rw [saveToFile_eq M hwf.1] at hbs
    injection hbs with hb
    subst hb
    refine ⟨⟨M.data.map (fun f =>
        withVal (M.data.headD ⟨0, false, 0, []⟩).prec (fromDigits (toDigits f).2)),
        M.rows, M.cols⟩, ?_, rfl, rfl, by simp, ?_⟩
    · rw [loadFromFile_savePrefix M hwf _ (hash256_length _),
        if_neg (fun hx => hx rfl)]
    · intro g hg
      simp only [List.mem_map] at hg
      obtain ⟨f, _, rfl⟩ := hg
      exact withVal_prec _ _

/-- Witness for C10 at a concrete matrix whose two elements carry different
precisions (64 and 128 bits): both reload at precision 64. -/
theorem c10_single_precision_persistence_witness :
    wfPMat mixedPrecPMat ∧
      ∃ M2 : PMat,
        loadFromFile ((saveToFile mixedPrecPMat).getD []) = Except.ok M2 ∧
        M2.rows = mixedPrecPMat.rows ∧ M2.cols = mixedPrecPMat.cols ∧
        M2.data.length = mixedPrecPMat.data.length ∧
        ∀ g ∈ M2.data, g.prec = (mixedPrecPMat.data.headD ⟨0, false, 0, []⟩).prec :=
  ⟨by decide, (c10_single_precision_persistence mixedPrecPMat).2 (by decide) _ rfl⟩


/-! ### Numeric layer (`rugmat.rs`): exact values with a non-finite element -/

/-- Exact rational arithmetic in a normalized fraction representation that
the kernel can evaluate.  The operations are proved to agree with Mathlib's
`ℚ` through `Frac.toRat` below. -/
structure Frac where
  num : Int
  den : Nat
  deriving DecidableEq

/-- Euclid's algorithm with explicit fuel (the first argument strictly
decreases, so `a + 1` fuel always suffices). -/
def gcdFuel : Nat → Nat → Nat → Nat
  | 0, _, b => b
  | fuel + 1, a, b => if a = 0 then b else gcdFuel fuel (b % a) a

def ngcd (a b : Nat) : Nat := gcdFuel (a + 1) a b

theorem gcdFuel_eq (fuel a b : Nat) (h : a < fuel) : gcdFuel fuel a b = Nat.gcd a b := by
  induction fuel generalizing a b with
  | zero => omega
  | succ fuel ih =>
    rw [gcdFuel]
    by_cases h0 : a = 0
    · subst h0; simp
    · rw [if_neg h0, ih (b % a) a
        (by have := Nat.mod_lt b (Nat.pos_of_ne_zero h0); omega)]
      rw [← Nat.gcd_rec]

theorem ngcd_eq_gcd (a b : Nat) : ngcd a b = Nat.gcd a b :=
  gcdFuel_eq _ _ _ (Nat.lt_succ_self a)

/-- Normalized constructor: the sign goes on the numerator, the denominator
is positive, and both are reduced by their gcd.  A zero denominator (never
reached by the embedded code on the paths under study, since MPFR divisions
by zero are filtered into the non-finite element first) maps to zero. -/
def mkFrac (n d : Int) : Frac :=
  if d = 0 then ⟨0, 1⟩
  else
    let n2 := if d < 0 then -n else n
    let g := ngcd n2.natAbs d.natAbs
    ⟨n2 / (g : Int), d.natAbs / g⟩

/-- The rational value a `Frac` denotes. -/
def Frac.toRat (a : Frac) : ℚ := (a.num : ℚ) / (a.den : ℚ)

def fzero : Frac := ⟨0, 1⟩

def fone : Frac := ⟨1, 1⟩

def addF (a b : Frac) : Frac :=
  mkFrac (a.num * (b.den : Int) + b.num * (a.den : Int)) ((a.den : Int) * (b.den : Int))

def subF (a b : Frac) : Frac :=
  mkFrac (a.num * (b.den : Int) - b.num * (a.den : Int)) ((a.den : Int) * (b.den : Int))

def mulF (a b : Frac) : Frac := mkFrac (a.num * b.num) ((a.den : Int) * (b.den : Int))

def negF (a : Frac) : Frac := ⟨-a.num, a.den⟩

def divF (a b : Frac) : Frac := mkFrac (a.num * (b.den : Int)) ((a.den : Int) * b.num)

def ltF (a b : Frac) : Bool := decide (a.num * (b.den : Int) < b.num * (a.den : Int))

def absF (a : Frac) : Frac := ⟨if a.num < 0 then -a.num else a.num, a.den⟩

theorem reduce_cast (n2 : Int) (dn : Nat) (hdn : dn ≠ 0) :
    ((n2 / (ngcd n2.natAbs dn : Int) : Int) : ℚ) /
        ((dn / ngcd n2.natAbs dn : Nat) : ℚ) = (n2 : ℚ) / (dn : ℚ) := by
  rw [ngcd_eq_gcd]
  set g := Nat.gcd n2.natAbs dn with hgdef
  have hg0 : g ≠ 0 := by
    intro hc
    rw [hgdef] at hc
    exact hdn (Nat.gcd_eq_zero_iff.mp hc).2
  obtain ⟨k, hk⟩ : ((g : Int)) ∣ n2 :=
    Int.dvd_natAbs.mp (Int.natCast_dvd_natCast.mpr (Nat.gcd_dvd_left _ _))
  obtain ⟨m, hm⟩ : g ∣ dn := Nat.gcd_dvd_right n2.natAbs dn
  have hint : n2 / (g : Int) = k := by
    rw [hk]
    exact Int.mul_ediv_cancel_left k (by exact_mod_cast hg0)
  have hnat : dn / g = m := by
    rw [hm]
    exact Nat.mul_div_cancel_left m (Nat.pos_of_ne_zero hg0)
  rw [hint, hnat, hk, hm]
  push_cast
  rw [mul_div_mul_left _ _ (by exact_mod_cast hg0)]

theorem toRat_mkFrac (n d : Int) (hd : d ≠ 0) :
    (mkFrac n d).toRat = (n : ℚ) / (d : ℚ) := by
  unfold mkFrac
  rw [if_neg hd]
  simp only [Frac.toRat]
  rw [reduce_cast _ _ (Int.natAbs_ne_zero.mpr hd)]
  by_cases hneg : d < 0
  · rw [if_pos hneg, Int.cast_natAbs, abs_of_neg hneg]
    push_cast
    rw [neg_div_neg_eq]
  · rw [if_neg hneg, Int.cast_natAbs, abs_of_nonneg (not_lt.mp hneg)]

theorem mkFrac_den_pos (n d : Int) (hd : d ≠ 0) : 0 < (mkFrac n d).den := by
  unfold mkFrac
  rw [if_neg hd]
  simp only []
  rw [ngcd_eq_gcd]
  set n2 := if d < 0 then -n else n
  have hdn : d.natAbs ≠ 0 := Int.natAbs_ne_zero.mpr hd
  have hg0 : Nat.gcd n2.natAbs d.natAbs ≠ 0 := by
    intro hc
    exact hdn (Nat.gcd_eq_zero_iff.mp hc).2
  exact Nat.div_pos (Nat.le_of_dvd (Nat.pos_of_ne_zero hdn) (Nat.gcd_dvd_right _ _))
    (Nat.pos_of_ne_zero hg0)

theorem toRat_addF (a b : Frac) (ha : 0 < a.den) (hb : 0 < b.den) :
    (addF a b).toRat = a.toRat + b.toRat := by
  unfold addF
  rw [toRat_mkFrac _ _ (by positivity)]
  unfold Frac.toRat
  have ha2 : ((a.den : ℚ)) ≠ 0 := by positivity
  have hb2 : ((b.den : ℚ)) ≠ 0 := by positivity
  push_cast
  field_simp

theorem toRat_subF (a b : Frac) (ha : 0 < a.den) (hb : 0 < b.den) :
    (subF a b).toRat = a.toRat - b.toRat := by
  unfold subF
  rw [toRat_mkFrac _ _ (by positivity)]
  unfold Frac.toRat
  have ha2 : ((a.den : ℚ)) ≠ 0 := by positivity
  have hb2 : ((b.den : ℚ)) ≠ 0 := by positivity
  push_cast
  field_simp
  ring

theorem toRat_mulF (a b : Frac) (ha : 0 < a.den) (hb : 0 < b.den) :
    (mulF a b).toRat = a.toRat * b.toRat := by
  unfold mulF
  rw [toRat_mkFrac _ _ (by positivity)]
  unfold Frac.toRat
  push_cast
  rw [div_mul_div_comm]

theorem toRat_negF (a : Frac) : (negF a).toRat = -a.toRat := by
  unfold negF Frac.toRat
  push_cast
  rw [neg_div]

theorem toRat_divF (a b : Frac) (ha : 0 < a.den) (hb : 0 < b.den)
    (hbn : b.num ≠ 0) :
    (divF a b).toRat = a.toRat / b.toRat := by
  unfold divF
  rw [toRat_mkFrac _ _ (by
    intro hc
    rcases mul_eq_zero.mp hc with h | h
    · omega
    · exact hbn h)]
  unfold Frac.toRat
  have ha2 : ((a.den : ℚ)) ≠ 0 := by positivity
  have hb2 : ((b.den : ℚ)) ≠ 0 := by positivity
  have hbn2 : ((b.num : ℚ)) ≠ 0 := by exact_mod_cast hbn
  push_cast
  field_simp

theorem ltF_eq (a b : Frac) (ha : 0 < a.den) (hb : 0 < b.den) :
    ltF a b = decide (a.toRat < b.toRat) := by
  unfold ltF Frac.toRat
  rw [decide_eq_decide]
  rw [div_lt_div_iff₀ (by exact_mod_cast ha) (by exact_mod_cast hb)]
  exact_mod_cast Iff.rfl

theorem mkFrac_zero_iff (n d : Int) (hd : d ≠ 0) : mkFrac n d = fzero ↔ n = 0 := by
  constructor
  · intro h
    have h2 := toRat_mkFrac n d hd
    rw [h] at h2
    have h3 : (n : ℚ) / (d : ℚ) = 0 := by
      rw [← h2]
      simp [Frac.toRat, fzero]
    rcases div_eq_zero_iff.mp h3 with h0 | h0
    · exact_mod_cast h0
    · exact absurd h0 (by exact_mod_cast hd)
  · intro h
    subst h
    unfold mkFrac
    rw [if_neg hd]
    simp [ngcd_eq_gcd, fzero, Nat.div_self (Nat.pos_of_ne_zero (Int.natAbs_ne_zero.mpr hd))]

/-- Value domain of the numeric layer: an arbitrary-precision float value is
modelled as an exact rational (`some q`) or as `none` for the non-finite
values (NaN/Inf) MPFR produces on division by zero.  Ring operations are
exact — rounding at working precision is abstracted away, the
arbitrary-precision primitive being an external collaborator (§1). -/
abbrev QF := Option Frac

def addQF : QF → QF → QF
  | some a, some b => some (addF a b)
  | _, _ => none

def subQF : QF → QF → QF
  | some a, some b => some (subF a b)
  | _, _ => none

def mulQF : QF → QF → QF
  | some a, some b => some (mulF a b)
  | _, _ => none

def negQF : QF → QF
  | some a => some (negF a)
  | none => none

/-- Division; a zero divisor yields the non-finite element (MPFR gives Inf
for `x/0` and NaN for `0/0`, both modelled by `none`). -/
def divQF : QF → QF → QF
  | some a, some b => if b = fzero then none else some (divF a b)
  | _, _ => none

/-- Strict comparison; false whenever an operand is non-finite, as MPFR
comparisons involving NaN are unordered. -/
def ltQF : QF → QF → Bool
  | some a, some b => ltF a b
  | _, _ => false

def absQF : QF → QF
  | some a => some (absF a)
  | none => none

/-- Square root: MPFR's correctly rounded `sqrt` is an external primitive,
taken as the parameter `sqrtF`; a negative operand gives NaN. -/
def sqrtQF (sqrtF : Frac → Frac) : QF → QF
  | some a => if ltF a fzero then none else some (sqrtF a)
  | none => none

/-- Integer square root by Newton iteration with explicit fuel. -/
def sqrtAux (n : Nat) : Nat → Nat → Nat
  | 0, g => g
  | fuel + 1, g =>
    let next := (g + n / g) / 2
    if next < g then sqrtAux n fuel next else g

def natSqrt (n : Nat) : Nat :=
  if n ≤ 1 then n else sqrtAux n n n

/-- An executable square root, exact on ratios of perfect squares; used to
instantiate the `sqrtF` parameter on concrete runs. -/
def fracSqrt (q : Frac) : Frac := mkFrac (natSqrt q.num.toNat) (natSqrt q.den)

/-- The matrix container of `rugmat.rs` at the numeric layer: a flat
column-major element list with its dimensions (element `(i, j)` at flat
index `j * rows + i`). -/
structure QMat where
  data : List QF
  rows : Nat
  cols : Nat
  deriving DecidableEq

/-- Indexed access `self.data[j * self.rows + i]`. -/
def QMat.entry (M : QMat) (i j : Nat) : QF := M.data.getD (j * M.rows + i) none

/-- Model of `matmul_vec`: entry `i` of the result is the row-`i` dot
product accumulated from zero; the parallel map over rows is modelled as a
sequential map (the workers write disjoint entries). -/
def matmulVec (A : QMat) (v : List QF) : List QF :=
  (List.range A.rows).map fun i =>
    (List.range A.cols).foldl
      (fun sum j => addQF sum (mulQF (A.entry i j) (v.getD j none))) (some fzero)

/-- Model of `matmul_transpose_vec`: entry `j` of the result accumulates
column `j` against `v`. -/
def matmulTransposeVec (A : QMat) (v : List QF) : List QF :=
  (List.range A.cols).map fun j =>
    (List.range A.rows).foldl
      (fun sum i => addQF sum (mulQF (A.entry i j) (v.getD i none))) (some fzero)

/-- The contraction indices visited by the blocked loop of `matmul`:
`(0..k).step_by(bs)` blocks, each covering `l_block .. min(l_block+bs, k)`. -/
def blockIndices (k bs : Nat) : List Nat :=
  ((List.range ((k + bs - 1) / bs)).map fun t =>
    List.range' (t * bs) (min bs (k - t * bs))).flatten

/-- One output column of `matmul`: a per-column accumulator of length
`A.rows`, updated in blocks of 32 over the contraction dimension. -/
def matmulCol (A B : QMat) (j : Nat) : List QF :=
  (blockIndices A.cols 32).foldl
    (fun acc l =>
      List.zipWith (fun a i => addQF a (mulQF (A.entry i l) (B.entry l j)))
        acc (List.range A.rows))
    (List.replicate A.rows (some fzero))

/-- Model of `matmul`: the output's columns (computed by parallel workers
over disjoint chunks in the source) concatenated column-major. -/
def matmul (A B : QMat) : QMat :=
  ⟨((List.range B.cols).map (matmulCol A B)).flatten, A.rows, B.cols⟩

/-- Row `i` of a matrix as a list. -/
def rowList (A : QMat) (i : Nat) : List QF :=
  (List.range A.cols).map fun l => A.entry i l

/-- Column `j` of a matrix as a list. -/
def colList (B : QMat) (j : Nat) : List QF :=
  (List.range B.rows).map fun l => B.entry l j

/-- Dot product as the source computes it: elementwise products folded from
an exact zero (the source folds with `reduce` on a nonempty list, which
agrees, since `some fzero` is an additive identity and `none` is
absorbing). -/
def dotList (a b : List QF) : QF :=
  (List.zipWith mulQF a b).foldl addQF (some fzero)

theorem toRat_addF_zero (b : Frac) (hb : 0 < b.den) :
    (addF fzero b).toRat = b.toRat := by
  rw [toRat_addF fzero b (by norm_num [fzero]) hb]
  simp [Frac.toRat, fzero]

theorem range'_blocks (bs q : Nat) :
    ((List.range q).map (fun t => List.range' (t * bs) bs)).flatten =
      List.range' 0 (q * bs) := by
  induction q with
  | zero => simp
  | succ q ih =>
    rw [List.range_succ]
    simp only [List.map_append, List.map_cons, List.map_nil, List.flatten_append,
      List.flatten_cons, List.flatten_nil, List.append_nil]
    rw [ih]
    have happ := List.range'_append 0 (q * bs) bs 1
    norm_num at happ
    rw [happ]
    congr 1
    ring

theorem blockIndices_eq_range (k : Nat) : blockIndices k 32 = List.range k := by
  by_cases hk : k = 0
  · subst hk; simp [blockIndices]
  · have hq1 : 1 ≤ (k + 32 - 1) / 32 := by omega
    obtain ⟨q, hq⟩ : ∃ q, (k + 32 - 1) / 32 = q + 1 := ⟨(k + 32 - 1) / 32 - 1, by omega⟩
    have hub : k ≤ (q + 1) * 32 := by omega
    have hlb : q * 32 < k := by omega
    unfold blockIndices
    rw [hq, List.range_succ]
    simp only [List.map_append, List.map_cons, List.map_nil, List.flatten_append,
      List.flatten_cons, List.flatten_nil, List.append_nil]
    have hfull : ∀ t ∈ List.range q,
        List.range' (t * 32) (min 32 (k - t * 32)) = List.range' (t * 32) 32 := by
      intro t ht
      have := List.mem_range.mp ht
      congr 1
      omega
    rw [List.map_congr_left hfull, range'_blocks 32 q]
    have hlast : min 32 (k - q * 32) = k - q * 32 := by omega
    rw [hlast]
    have happ := List.range'_append 0 (q * 32) (k - q * 32) 1
    norm_num at happ
    rw [happ, List.range_eq_range']
    congr 1
    omega

theorem foldl_upd_length (A B : QMat) (j : Nat) (L : List Nat) (acc : List QF)
    (h : acc.length = A.rows) :
    (L.foldl (fun acc l =>
      List.zipWith (fun a i => addQF a (mulQF (A.entry i l) (B.entry l j)))
        acc (List.range A.rows)) acc).length = A.rows := by
  induction L generalizing acc with
  | nil => exact h
  | cons l L ih =>
    rw [List.foldl_cons]
    exact ih _ (by simp [h])

theorem foldl_upd_getD (A B : QMat) (j : Nat) (L : List Nat) (acc : List QF)
    (i : Nat) (hi : i < A.rows) (h : acc.length = A.rows) :
    (L.foldl (fun acc l =>
      List.zipWith (fun a i => addQF a (mulQF (A.entry i l) (B.entry l j)))
        acc (List.range A.rows)) acc).getD i none =
      L.foldl (fun s l => addQF s (mulQF (A.entry i l) (B.entry l j)))
        (acc.getD i none) := by
  induction L generalizing acc with
  | nil => rfl
  | cons l L ih =>
    rw [List.foldl_cons, List.foldl_cons, ih _ (by simp [h])]
    congr 1
    have hlen : (List.zipWith (fun a i => addQF a (mulQF (A.entry i l) (B.entry l j)))
        acc (List.range A.rows)).length = A.rows := by simp [h]
    rw [List.getD_eq_getElem _ _ (by omega), List.getD_eq_getElem _ _ (by omega)]
    simp [List.getElem_zipWith]

theorem flatten_map_range'_getD (colf : Nat → List QF) (m : Nat)
    (hlen : ∀ t, (colf t).length = m) (i : Nat) (hi : i < m) :
    ∀ (n s j : Nat), j < n →
      (((List.range' s n).map colf).flatten).getD (j * m + i) none =
        (colf (s + j)).getD i none := by
  intro n
  induction n with
  | zero => intro s j hj; omega
  | succ n ih =>
    intro s j hj
    rw [List.range'_succ]
    simp only [List.map_cons, List.flatten_cons]
    match j with
    | 0 =>
      simp only [Nat.zero_mul, Nat.zero_add]
      rw [List.getD_append _ _ _ _ (by rw [hlen s]; exact hi)]
      simp
    | j + 1 =>
      have hmul : (j + 1) * m = j * m + m := by ring
      rw [List.getD_append_right _ _ _ _ (by rw [hlen s]; omega)]
      rw [hlen s]
      have hidx : (j + 1) * m + i - m = j * m + i := by rw [hmul]; omega
      have hsum : s + 1 + j = s + (j + 1) := by omega
      rw [hidx, ih (s + 1) j (by omega), hsum]

theorem matmulCol_length (A B : QMat) (j : Nat) :
    (matmulCol A B j).length = A.rows :=
  foldl_upd_length A B j _ _ (List.length_replicate _ _)

theorem matmul_entry_eq (A B : QMat) (i j : Nat) (hi : i < A.rows)
    (hj : j < B.cols) :
    (matmul A B).entry i j =
      (List.range A.cols).foldl
        (fun s l => addQF s (mulQF (A.entry i l) (B.entry l j))) (some fzero) := by
  unfold matmul QMat.entry
  simp only []
  rw [List.range_eq_range']
  rw [flatten_map_range'_getD (matmulCol A B) A.rows (matmulCol_length A B) i hi
    B.cols 0 j hj]
  rw [Nat.zero_add]
  unfold matmulCol
  rw [blockIndices_eq_range,
    foldl_upd_getD A B j _ _ i hi (List.length_replicate _ _)]
  congr 1
  rw [List.getD_eq_getElem _ _ (by simp [hi]), List.getElem_replicate]

theorem map_getD_range (v : List QF) :
    (List.range v.length).map (fun j => v.getD j none) = v := by
  apply List.ext_getElem (by simp)
  intro i h1 h2
  rw [List.getElem_map, List.getElem_range, List.getD_eq_getElem _ _ h2]

theorem dotList_maps (k : Nat) (f g : Nat → QF) :
    dotList ((List.range k).map f) ((List.range k).map g) =
      (List.range k).foldl (fun s l => addQF s (mulQF (f l) (g l))) (some fzero) := by
  unfold dotList
  rw [List.zipWith_map, List.zipWith_same, List.foldl_map]

theorem dotList_map_left (f : Nat → QF) (v : List QF) :
    dotList ((List.range v.length).map f) v =
      (List.range v.length).foldl
        (fun s j => addQF s (mulQF (f j) (v.getD j none))) (some fzero) := by
  have h2 : dotList ((List.range v.length).map f) v =
      dotList ((List.range v.length).map f)
        ((List.range v.length).map (fun j => v.getD j none)) := by
    rw [map_getD_range]
  rw [h2, dotList_maps]

/-- An integer value at the numeric layer. -/
def intF (n : Int) : Frac := ⟨n, 1⟩

/-- Concrete matrices of the spec's known-product tests, column-major. -/
def mmA : QMat := ⟨[some (intF 1), some (intF 0), some (intF 2), some (intF 1)], 2, 2⟩

def mmB : QMat := ⟨[some (intF 3), some (intF 5), some (intF 4), some (intF 6)], 2, 2⟩

def mmAB : QMat := ⟨[some (intF 13), some (intF 5), some (intF 16), some (intF 6)], 2, 2⟩

def mvA : QMat := ⟨[some (intF 2), some (intF 1), some (intF 0), some (intF 3)], 2, 2⟩

/-- C8: under the dimension preconditions, `matmul` returns a fresh
`A.rows × B.cols` matrix whose `(i, j)` entry is the dot product of row `i`
of `A` with column `j` of `B` (the blocked, per-column accumulation agrees
with the plain left-to-right sum), `matmul_vec` returns the vector whose
entry `i` is the row-`i` dot product with `v`, and the spec's two known
products hold exactly. -/
theorem c8_matmul_known_products :
    (∀ A B : QMat, A.cols = B.rows →
      (matmul A B).rows = A.rows ∧ (matmul A B).cols = B.cols ∧
      ∀ i j, i < A.rows → j < B.cols →
        (matmul A B).entry i j = dotList (rowList A i) (colList B j)) ∧
    (∀ (A : QMat) (v : List QF), v.length = A.cols →
      (matmulVec A v).length = A.rows ∧
      ∀ i, i < A.rows → (matmulVec A v).getD i none = dotList (rowList A i) v) ∧
    matmul mmA mmB = mmAB ∧
    matmulVec mvA [some (intF 1), some (intF 2)] = [some (intF 2), some (intF 7)] := by
  refine ⟨?_, ?_, by decide, by decide⟩
  · intro A B hAB
    refine ⟨rfl, rfl, ?_⟩
    intro i j hi hj
    rw [matmul_entry_eq A B i j hi hj]
    unfold rowList colList
    rw [← hAB, dotList_maps]
  · intro A v hv
    constructor
    · simp [matmulVec]
    · intro i hi
      unfold matmulVec
      rw [List.getD_eq_getElem _ _ (by simp [hi]), List.getElem_map,
        List.getElem_range]
      unfold rowList
      rw [← hv, dotList_map_left]

/-- Witness for C8 at the spec's concrete matrices. -/
theorem c8_matmul_known_products_witness :
    mmA.cols = mmB.rows ∧
      (matmul mmA mmB).entry 0 1 = dotList (rowList mmA 0) (colList mmB 1) ∧
      ([some (intF 1), some (intF 2)] : List QF).length = mvA.cols ∧
      (matmulVec mvA [some (intF 1), some (intF 2)]).getD 1 none =
        dotList (rowList mvA 1) [some (intF 1), some (intF 2)] :=
  ⟨by decide,
   (c8_matmul_known_products.1 mmA mmB (by decide)).2.2 0 1 (by decide) (by decide),
   by decide,
   (c8_matmul_known_products.2.1 mvA [some (intF 1), some (intF 2)] (by decide)).2
     1 (by decide)⟩


/-! ### Iterative solvers (`rugmat.rs`) -/

/-- Squared-norm accumulator `r.iter().map(|v| v*v).reduce(+)` of the
conjugate-gradient code, folded from an exact zero (see `dotList`). -/
def sumSq (r : List QF) : QF :=
  (r.map (fun v => mulQF v v)).foldl addQF (some fzero)

/-- The normal-equations operator application `Aᵗ(A·p)` exactly as the
solvers compute it, through the two matrix-vector products. -/
def applyNormal (A : QMat) (p : List QF) : List QF :=
  matmulTransposeVec A (matmulVec A p)

/-- The solver-local state of the conjugate-gradient loop: iterate,
residual, search direction, and the squared residual norm `rs_old`. -/
structure CGState where
  x : List QF
  r : List QF
  p : List QF
  rsOld : QF
  deriving DecidableEq

/-- The state before the first CG iteration: `x = 0`,
`r = p = Aᵗb - AᵗA·x` (computed through the products, as in the source),
`rs_old = Σ rᵢ²`. -/
def cgInit (A : QMat) (b : List QF) : CGState :=
  ⟨List.replicate A.cols (some fzero),
   List.zipWith subQF (matmulTransposeVec A b)
     (applyNormal A (List.replicate A.cols (some fzero))),
   List.zipWith subQF (matmulTransposeVec A b)
     (applyNormal A (List.replicate A.cols (some fzero))),
   sumSq (List.zipWith subQF (matmulTransposeVec A b)
     (applyNormal A (List.replicate A.cols (some fzero))))⟩

/-- The search-direction denominator `p·(AᵗA·p)` of one CG iteration. -/
def cgDenom (A : QMat) (s : CGState) : QF := dotList s.p (applyNormal A s.p)

/-- One full CG iteration: `α = rs_old/denom`, `x += α·p`, `r -= α·Ap`,
`rs_new = Σ rᵢ²`, `β = rs_new/rs_old`, `p = r + β·p`; the updated `rsOld`
field holds `rs_new`. -/
def cgStep (A : QMat) (s : CGState) : CGState :=
  ⟨List.zipWith addQF s.x (s.p.map (mulQF (divQF s.rsOld (cgDenom A s)))),
   List.zipWith subQF s.r
     ((applyNormal A s.p).map (mulQF (divQF s.rsOld (cgDenom A s)))),
   List.zipWith addQF
     (List.zipWith subQF s.r
       ((applyNormal A s.p).map (mulQF (divQF s.rsOld (cgDenom A s)))))
     (s.p.map (mulQF (divQF
       (sumSq (List.zipWith subQF s.r
         ((applyNormal A s.p).map (mulQF (divQF s.rsOld (cgDenom A s))))))
       s.rsOld))),
   sumSq (List.zipWith subQF s.r
     ((applyNormal A s.p).map (mulQF (divQF s.rsOld (cgDenom A s)))))⟩

/-- Observable outcome of the CG loop: the returned iterate, the number of
iterations executed, and whether the early-exit test fired (`finished`), or
the zero-denominator break with the iterate at that point (`deficient`). -/
inductive CGOut where
  | finished (x : List QF) (iters : Nat) (early : Bool)
  | deficient (x : List QF) (iters : Nat)
  deriving DecidableEq

/-- The CG iteration loop, instrumented with an iteration counter: checks
the denominator, steps, and exits early when `rs_new < epsN`. -/
def cgLoop (A : QMat) (epsN : QF) : Nat → CGState → Nat → CGOut
  | 0, s, it => CGOut.finished s.x it false
  | fuel + 1, s, it =>
    if cgDenom A s = some fzero then CGOut.deficient s.x it
    else
      if ltQF (cgStep A s).rsOld epsN then CGOut.finished (cgStep A s).x (it + 1) true
      else cgLoop A epsN fuel (cgStep A s) (it + 1)

/-- The constant `Float::with_val(precision, 1e-30)`: exactly `10^-30` in
the exact-value model. -/
def epsilonQF : QF := some ⟨1, 10 ^ 30⟩

/-- The regularization constant `Float::with_val(precision, 1e-10)`. -/
def lambdaQF : QF := some ⟨1, 10 ^ 10⟩

/-- The CG loop run from the initial state with the early-exit threshold
`ε · ‖r₀‖` where `‖r₀‖ = sqrt(rs_old)` (`initial_norm` in the source). -/
def cgOutcome (sqrtF : Frac → Frac) (A : QMat) (b : List QF) (maxIters : Nat) :
    CGOut :=
  cgLoop A (mulQF epsilonQF (sqrtQF sqrtF (cgInit A b).rsOld)) maxIters
    (cgInit A b) 0

/-- Initial state of `cg_regularized`: as `cgInit`, then `rᵢ -= λ·xᵢ`
with `x = 0`. -/
def regInit (A : QMat) (b : List QF) (lam : QF) : CGState :=
  ⟨(cgInit A b).x,
   List.zipWith (fun ri xi => subQF ri (mulQF lam xi)) (cgInit A b).r (cgInit A b).x,
   List.zipWith (fun ri xi => subQF ri (mulQF lam xi)) (cgInit A b).r (cgInit A b).x,
   sumSq (List.zipWith (fun ri xi => subQF ri (mulQF lam xi))
     (cgInit A b).r (cgInit A b).x)⟩

/-- The Tikhonov operator application of `cg_regularized`:
`Ap = AᵗA·p + λ·p`, elementwise as the source computes it. -/
def applyReg (A : QMat) (lam : QF) (p : List QF) : List QF :=
  List.zipWith (fun v pi => addQF v (mulQF lam pi)) (applyNormal A p) p

/-- One iteration of `cg_regularized`.  Note: there is no zero-denominator
check here — `alpha = rs_old/denom` divides unconditionally. -/
def regStep (A : QMat) (lam : QF) (s : CGState) : CGState :=
  ⟨List.zipWith addQF s.x
     (s.p.map (mulQF (divQF s.rsOld (dotList s.p (applyReg A lam s.p))))),
   List.zipWith subQF s.r
     ((applyReg A lam s.p).map
       (mulQF (divQF s.rsOld (dotList s.p (applyReg A lam s.p))))),
   List.zipWith addQF
     (List.zipWith subQF s.r
       ((applyReg A lam s.p).map
         (mulQF (divQF s.rsOld (dotList s.p (applyReg A lam s.p))))))
     (s.p.map (mulQF (divQF
       (sumSq (List.zipWith subQF s.r
         ((applyReg A lam s.p).map
           (mulQF (divQF s.rsOld (dotList s.p (applyReg A lam s.p)))))))
       s.rsOld))),
   sumSq (List.zipWith subQF s.r
     ((applyReg A lam s.p).map
       (mulQF (divQF s.rsOld (dotList s.p (applyReg A lam s.p))))))⟩

/-- The `cg_regularized` loop: steps and exits early when
`rs_new < 1e-30` (an absolute threshold here, unlike plain CG). -/
def regLoop (A : QMat) (lam : QF) : Nat → CGState → List QF
  | 0, s => s.x
  | fuel + 1, s =>
    if ltQF (regStep A lam s).rsOld epsilonQF then (regStep A lam s).x
    else regLoop A lam fuel (regStep A lam s)

/-- Model of `cg_regularized`. -/
def cgRegularized (A : QMat) (b : List QF) (maxIters : Nat) (lam : QF) :
    List QF :=
  regLoop A lam maxIters (regInit A b lam)

/-- Model of `conjugate_gradient`: run the CG loop; on a zero denominator
restart with the regularized solver at `λ = 1e-10` (the
`restart_regularized` flag of the source is never set, so the restart
always fires on the first zero denominator and its `else break` arm is
unreachable). -/
def conjugateGradient (sqrtF : Frac → Frac) (A : QMat) (b : List QF)
    (maxIters : Nat) : List QF :=
  match cgOutcome sqrtF A b maxIters with
  | CGOut.deficient _ _ => cgRegularized A b maxIters lambdaQF
  | CGOut.finished x _ _ => x

theorem cgLoop_eq_find (A : QMat) (epsN : QF) (fuel : Nat) :
    ∀ (s : CGState) (it : Nat),
      (∀ k, k < fuel → cgDenom A ((cgStep A)^[k] s) ≠ some fzero) →
      cgLoop A epsN fuel s it =
        match (List.range fuel).find?
            (fun k => ltQF ((cgStep A)^[k + 1] s).rsOld epsN) with
        | some k => CGOut.finished ((cgStep A)^[k + 1] s).x (it + (k + 1)) true
        | none => CGOut.finished ((cgStep A)^[fuel] s).x (it + fuel) false := by
  induction fuel with
  | zero =>
    intro s it h
    simp [cgLoop]
  | succ fuel ih =>
    intro s it h
    have h0 : ¬(cgDenom A s = some fzero) := by
      have := h 0 (Nat.succ_pos fuel)
      simpa using this
    rw [cgLoop, if_neg h0]
    rw [List.range_succ_eq_map, List.find?_cons]
    by_cases hc : ltQF (cgStep A s).rsOld epsN
    · rw [if_pos hc]
      have hc1 : ltQF ((cgStep A)^[0 + 1] s).rsOld epsN = true := by
        simpa [Function.iterate_one] using hc
      rw [hc1]
      simp [Function.iterate_one]
    · rw [if_neg hc]
      have hc1 : ltQF ((cgStep A)^[0 + 1] s).rsOld epsN = false := by
        simp only [Nat.zero_add, Function.iterate_one]
        exact Bool.eq_false_iff.mpr hc
      rw [hc1]
      have hshift : ∀ k, k < fuel → cgDenom A ((cgStep A)^[k] (cgStep A s)) ≠ some fzero := by
        intro k hk
        rw [← Function.iterate_succ_apply]
        exact h (k + 1) (by omega)
      rw [ih (cgStep A s) (it + 1) hshift]
      rw [List.find?_map]
      have hpred : ((fun k => ltQF ((cgStep A)^[k + 1] s).rsOld epsN) ∘ Nat.succ)
          = (fun k => ltQF ((cgStep A)^[k + 1] (cgStep A s)).rsOld epsN) := by
        funext k
        simp only [Function.comp]
        rw [← Function.iterate_succ_apply]
      rw [hpred]
      cases hfind : (List.range fuel).find?
          (fun k => ltQF ((cgStep A)^[k + 1] (cgStep A s)).rsOld epsN) with
      | none =>
        simp only [Option.map_none]
        rw [← Function.iterate_succ_apply]
        congr 1
        omega
      | some k =>
        simp only [Option.map_some]
        rw [← Function.iterate_succ_apply]
        congr 1
        omega

/-- C4 (amended): the CG early exit fires at the first iteration whose
squared residual norm `rs_new = Σ rᵢ²` drops below `ε·‖r₀‖` with
`ε = 10^-30` and `‖r₀‖ = sqrt(rs_old₀)`; the loop then returns the iterate
of that step having executed exactly that many iterations, and otherwise
runs its full budget.  (The claim's test `‖r_new‖ < ε·‖r₀‖` compares the
non-squared norm and is refuted by the counterexample.) -/
theorem c4_cg_stopping_test (sqrtF : Frac → Frac) (A : QMat) (b : List QF)
    (maxIters : Nat)
    (hden : ∀ k, k < maxIters → cgDenom A ((cgStep A)^[k] (cgInit A b)) ≠ some fzero) :
    cgOutcome sqrtF A b maxIters =
      match (List.range maxIters).find?
          (fun k => ltQF ((cgStep A)^[k + 1] (cgInit A b)).rsOld
            (mulQF epsilonQF (sqrtQF sqrtF (cgInit A b).rsOld))) with
      | some k => CGOut.finished ((cgStep A)^[k + 1] (cgInit A b)).x (k + 1) true
      | none => CGOut.finished ((cgStep A)^[maxIters] (cgInit A b)).x maxIters false := by
  unfold cgOutcome
  rw [cgLoop_eq_find A _ maxIters (cgInit A b) 0 hden]
  cases (List.range maxIters).find?
      (fun k => ltQF ((cgStep A)^[k + 1] (cgInit A b)).rsOld
        (mulQF epsilonQF (sqrtQF sqrtF (cgInit A b).rsOld))) with
  | none => simp
  | some k => simp

/-- A well-posed 1x1 system used as the C4 witness. -/
def cgExA : QMat := ⟨[some fone], 1, 1⟩

def cgExB : List QF := [some fone]

/-- Witness for C4: on the 1x1 identity system the single denominator is
nonzero, the first step reaches an exact zero residual, and the loop stops
early after exactly one of its one allotted iterations. -/
theorem c4_cg_stopping_test_witness :
    (∀ k, k < 1 → cgDenom cgExA ((cgStep cgExA)^[k] (cgInit cgExA cgExB)) ≠ some fzero) ∧
      cgOutcome fracSqrt cgExA cgExB 1 = CGOut.finished [some fone] 1 true := by
  refine ⟨by decide, ?_⟩
  rw [c4_cg_stopping_test fracSqrt cgExA cgExB 1 (by decide)]
  decide

/-- The diagonal matrix `diag(1, 2)` (column-major) of the C4
counterexample. -/
def cexA : QMat := ⟨[some (intF 1), some (intF 0), some (intF 0), some (intF 2)], 2, 2⟩

/-- The right-hand side `(3s, 2s)` with `s = 2^-103`, giving
`Aᵗb = (3s, 4s)` and `‖r₀‖ = 5s` exactly. -/
def cexB : List QF := [some ⟨3, 2 ^ 103⟩, some ⟨1, 2 ^ 102⟩]

/-- C4 counterexample: with two iterations of budget on `diag(1,2)` and
`b = (3s, 2s)`, `s = 2^-103`, the loop stops early after one iteration —
the squared-norm test `rs_new < ε·‖r₀‖` holds — although the residual norm
itself has not dropped below `ε·‖r₀‖` (`sqrt(rs_new) = (180/73)s ≥
ε·5s`), refuting the claimed stopping rule `‖r_new‖ < ε·‖r₀‖`. -/
theorem c4_cg_stopping_test_counterexample :
    cgOutcome fracSqrt cexA cexB 2 =
      CGOut.finished ((cgStep cexA)^[1] (cgInit cexA cexB)).x 1 true ∧
    ltQF ((cgStep cexA)^[1] (cgInit cexA cexB)).rsOld
      (mulQF epsilonQF (sqrtQF fracSqrt (cgInit cexA cexB).rsOld)) = true ∧
    ltQF (sqrtQF fracSqrt ((cgStep cexA)^[1] (cgInit cexA cexB)).rsOld)
      (mulQF epsilonQF (sqrtQF fracSqrt (cgInit cexA cexB).rsOld)) = false := by
  refine ⟨by decide, by decide, by decide⟩

/-- C5 (amended): when plain CG hits a zero search-direction denominator it
returns the result of exactly one regularized run at `λ = 10^-10`;
`cg_regularized` performs no further restart (it has no zero-denominator
check at all — see the counterexample for what it does instead). -/
theorem c5_cg_restart (sqrtF : Frac → Frac) (A : QMat) (b : List QF)
    (maxIters : Nat)
    (h : ∃ x k, cgOutcome sqrtF A b maxIters = CGOut.deficient x k) :
    conjugateGradient sqrtF A b maxIters =
      cgRegularized A b maxIters (some ⟨1, 10 ^ 10⟩) := by
  obtain ⟨x, k, hx⟩ := h
  unfold conjugateGradient
  rw [hx]
  rfl

/-- The 1x1 zero system: `AᵗA` is singular, `Aᵗb = 0`. -/
def zeroA : QMat := ⟨[some fzero], 1, 1⟩

def oneB : List QF := [some fone]

/-- Witness for C5: the zero system hits the zero denominator on the first
iteration and the solver returns the regularized run's result. -/
theorem c5_cg_restart_witness :
    (∃ x k, cgOutcome fracSqrt zeroA oneB 1 = CGOut.deficient x k) ∧
      conjugateGradient fracSqrt zeroA oneB 1 =
        cgRegularized zeroA oneB 1 (some ⟨1, 10 ^ 10⟩) :=
  ⟨⟨[some fzero], 0, by decide⟩,
   c5_cg_restart fracSqrt zeroA oneB 1 ⟨[some fzero], 0, by decide⟩⟩

/-- C5 counterexample: on the 1x1 zero system the regularized restart hits
its own zero denominator, divides by zero (`alpha = 0/0`), and the solver
returns the non-finite vector `[none]` — not the best-effort partial
iterate `[0]` the claim describes for a second zero denominator. -/
theorem c5_cg_restart_counterexample :
    conjugateGradient fracSqrt zeroA oneB 1 = [none] ∧
      ([none] : List QF) ≠ [some fzero] := by
  refine ⟨by decide, by decide⟩


theorem matmulVec_length (A : QMat) (v : List QF) :
    (matmulVec A v).length = A.rows := by
  simp [matmulVec]

theorem matmulTransposeVec_length (A : QMat) (v : List QF) :
    (matmulTransposeVec A v).length = A.cols := by
  simp [matmulTransposeVec]

theorem applyNormal_length (A : QMat) (p : List QF) :
    (applyNormal A p).length = A.cols := by
  simp [applyNormal, matmulTransposeVec_length]

/-- The vector a CG outcome carries (the returned iterate). -/
def CGOut.vec : CGOut → List QF
  | CGOut.finished x _ _ => x
  | CGOut.deficient x _ => x

theorem cgStep_lengths (A : QMat) (s : CGState)
    (hx : s.x.length = A.cols) (hr : s.r.length = A.cols)
    (hp : s.p.length = A.cols) :
    (cgStep A s).x.length = A.cols ∧ (cgStep A s).r.length = A.cols ∧
      (cgStep A s).p.length = A.cols := by
  refine ⟨?_, ?_, ?_⟩ <;>
    simp [cgStep, List.length_zipWith, applyNormal_length, hx, hr, hp]

theorem cgInit_lengths (A : QMat) (b : List QF) :
    (cgInit A b).x.length = A.cols ∧ (cgInit A b).r.length = A.cols ∧
      (cgInit A b).p.length = A.cols := by
  refine ⟨?_, ?_, ?_⟩ <;>
    simp [cgInit, List.length_zipWith, applyNormal_length, matmulTransposeVec_length]

theorem cgLoop_vec_length (A : QMat) (epsN : QF) :
    ∀ (fuel : Nat) (s : CGState) (it : Nat),
      s.x.length = A.cols → s.r.length = A.cols → s.p.length = A.cols →
      (cgLoop A epsN fuel s it).vec.length = A.cols := by
  intro fuel
  induction fuel with
  | zero =>
    intro s it hx _ _
    simpa [cgLoop, CGOut.vec] using hx
  | succ fuel ih =>
    intro s it hx hr hp
    obtain ⟨hx2, hr2, hp2⟩ := cgStep_lengths A s hx hr hp
    rw [cgLoop]
    by_cases hd : cgDenom A s = some fzero
    · rw [if_pos hd]
      simpa [CGOut.vec] using hx
    · rw [if_neg hd]
      by_cases hc : ltQF (cgStep A s).rsOld epsN
      · rw [if_pos hc]
        simpa [CGOut.vec] using hx2
      · rw [if_neg hc]
        exact ih (cgStep A s) (it + 1) hx2 hr2 hp2

theorem applyReg_length (A : QMat) (lam : QF) (p : List QF)
    (hp : p.length = A.cols) : (applyReg A lam p).length = A.cols := by
  simp [applyReg, List.length_zipWith, applyNormal_length, hp]

theorem regStep_lengths (A : QMat) (lam : QF) (s : CGState)
    (hx : s.x.length = A.cols) (hr : s.r.length = A.cols)
    (hp : s.p.length = A.cols) :
    (regStep A lam s).x.length = A.cols ∧ (regStep A lam s).r.length = A.cols ∧
      (regStep A lam s).p.length = A.cols := by
  refine ⟨?_, ?_, ?_⟩ <;>
    simp [regStep, List.length_zipWith, applyReg_length A lam s.p hp, hx, hr, hp]

theorem regLoop_length (A : QMat) (lam : QF) :
    ∀ (fuel : Nat) (s : CGState),
      s.x.length = A.cols → s.r.length = A.cols → s.p.length = A.cols →
      (regLoop A lam fuel s).length = A.cols := by
  intro fuel
  induction fuel with
  | zero => intro s hx _ _; simpa [regLoop] using hx
  | succ fuel ih =>
    intro s hx hr hp
    obtain ⟨hx2, hr2, hp2⟩ := regStep_lengths A lam s hx hr hp
    rw [regLoop]
    by_cases hc : ltQF (regStep A lam s).rsOld epsilonQF
    · rw [if_pos hc]
      exact hx2
    · rw [if_neg hc]
      exact ih (regStep A lam s) hx2 hr2 hp2

theorem regInit_lengths (A : QMat) (b : List QF) (lam : QF) :
    (regInit A b lam).x.length = A.cols ∧ (regInit A b lam).r.length = A.cols ∧
      (regInit A b lam).p.length = A.cols := by
  obtain ⟨h1, h2, h3⟩ := cgInit_lengths A b
  refine ⟨?_, ?_, ?_⟩ <;> simp [regInit, List.length_zipWith, h1, h2, h3]

theorem cgRegularized_length (A : QMat) (b : List QF) (maxIters : Nat) (lam : QF) :
    (cgRegularized A b maxIters lam).length = A.cols := by
  obtain ⟨h1, h2, h3⟩ := regInit_lengths A b lam
  exact regLoop_length A lam maxIters _ h1 h2 h3

theorem conjugateGradient_length (sqrtF : Frac → Frac) (A : QMat) (b : List QF)
    (maxIters : Nat) : (conjugateGradient sqrtF A b maxIters).length = A.cols := by
  unfold conjugateGradient
  obtain ⟨h1, h2, h3⟩ := cgInit_lengths A b
  have hloop := cgLoop_vec_length A
    (mulQF epsilonQF (sqrtQF sqrtF (cgInit A b).rsOld)) maxIters (cgInit A b) 0
    h1 h2 h3
  cases hout : cgOutcome sqrtF A b maxIters with
  | finished x iters early =>
    unfold cgOutcome at hout
    rw [hout] at hloop
    simpa [CGOut.vec] using hloop
  | deficient x iters => exact cgRegularized_length A b maxIters lambdaQF

/-- Model of `norm2_vec`: the squared sum accumulated from zero (at doubled
precision in the source, exact here), then the square root. -/
def norm2Vec (sqrtF : Frac → Frac) (v : List QF) : QF :=
  sqrtQF sqrtF (v.foldl (fun acc y => addQF acc (mulQF y y)) (some fzero))

/-- The solver-local state of the LSQR loop. -/
structure LSQRState where
  x : List QF
  u : List QF
  v : List QF
  w : List QF
  alpha : QF
  phibar : QF
  rhobar : QF
  deriving DecidableEq

/-- The LSQR prelude: `u = b/‖b‖`, `v = Aᵗu/‖Aᵗu‖`, `w = v`,
`phibar = β`, `rhobar = α`.  Note the unguarded divisions by the norms. -/
def lsqrInit (sqrtF : Frac → Frac) (A : QMat) (b : List QF) : LSQRState :=
  let beta := norm2Vec sqrtF b
  let u1 := b.map (fun ui => divQF ui beta)
  let v0 := matmulTransposeVec A u1
  let alpha := norm2Vec sqrtF v0
  let v1 := v0.map (fun vi => divQF vi alpha)
  ⟨List.replicate A.cols (some fzero), u1, v1, v1, alpha, beta, alpha⟩

/-- One LSQR iteration: the Golub-Kahan recurrence exactly as in the
source, with unguarded divisions by `beta`, `alpha` and `rho`. -/
def lsqrStep (sqrtF : Frac → Frac) (A : QMat) (s : LSQRState) : LSQRState :=
  let un := List.zipWith (fun uni ui => subQF uni (mulQF s.alpha ui))
    (matmulVec A s.v) s.u
  let beta := norm2Vec sqrtF un
  let u2 := un.map (fun ui => divQF ui beta)
  let vn := List.zipWith (fun vni vi => subQF vni (mulQF beta vi))
    (matmulTransposeVec A u2) s.v
  let alpha2 := norm2Vec sqrtF vn
  let v2 := vn.map (fun vi => divQF vi alpha2)
  let rho := sqrtQF sqrtF (addQF (mulQF s.rhobar s.rhobar) (mulQF beta beta))
  let c := divQF s.rhobar rho
  let sg := divQF beta rho
  let theta := mulQF sg alpha2
  let phi := mulQF c s.phibar
  ⟨List.zipWith (fun xj wj => addQF xj (mulQF phi wj)) s.x s.w,
   u2, v2,
   List.zipWith (fun vj wj => subQF vj (mulQF theta wj)) v2 s.w,
   alpha2, mulQF sg s.phibar, mulQF (negQF c) alpha2⟩

def lsqrLoop (sqrtF : Frac → Frac) (A : QMat) : Nat → LSQRState → List QF
  | 0, s => s.x
  | fuel + 1, s => lsqrLoop sqrtF A fuel (lsqrStep sqrtF A s)

/-- Model of `lsqr`: fixed iteration count, no convergence test, returns
the iterate unconditionally. -/
def lsqr (sqrtF : Frac → Frac) (A : QMat) (b : List QF) (maxIters : Nat) :
    List QF :=
  lsqrLoop sqrtF A maxIters (lsqrInit sqrtF A b)

/-- One gradient-descent iteration:
`x := x - α·Aᵗ(A·x - b)`, through the products as in the source. -/
def gdStep (A : QMat) (alpha : QF) (b : List QF) (x : List QF) : List QF :=
  List.zipWith (fun xj tj => subQF xj (mulQF alpha tj)) x
    (matmulTransposeVec A (List.zipWith subQF (matmulVec A x) b))

def gdLoop (A : QMat) (alpha : QF) (b : List QF) : Nat → List QF → List QF
  | 0, x => x
  | n + 1, x => gdLoop A alpha b n (gdStep A alpha b x)

/-- The solver selector of `pseudo_inverse_solve`. -/
inductive PIAlg where
  | gradientDescent (alpha : QF)
  | lsqr
  | conjugateGradient
  deriving DecidableEq

/-- Model of `pseudo_inverse_solve`: dispatches to the chosen solver; every
branch returns a plain vector — no error channel exists. -/
def pseudoInverseSolve (sqrtF : Frac → Frac) (A : QMat) (b : List QF)
    (iters : Nat) : PIAlg → List QF
  | PIAlg.gradientDescent alpha =>
    gdLoop A alpha b iters (List.replicate A.cols (some fzero))
  | PIAlg.lsqr => lsqr sqrtF A b iters
  | PIAlg.conjugateGradient => conjugateGradient sqrtF A b iters

theorem lsqrStep_lengths (sqrtF : Frac → Frac) (A : QMat) (s : LSQRState)
    (hx : s.x.length = A.cols) (hv : s.v.length = A.cols)
    (hw : s.w.length = A.cols) :
    (lsqrStep sqrtF A s).x.length = A.cols ∧
      (lsqrStep sqrtF A s).v.length = A.cols ∧
      (lsqrStep sqrtF A s).w.length = A.cols := by
  refine ⟨?_, ?_, ?_⟩ <;>
    simp [lsqrStep, List.length_zipWith, matmulTransposeVec_length, hx, hv, hw]

theorem lsqrLoop_length (sqrtF : Frac → Frac) (A : QMat) :
    ∀ (fuel : Nat) (s : LSQRState),
      s.x.length = A.cols → s.v.length = A.cols → s.w.length = A.cols →
      (lsqrLoop sqrtF A fuel s).length = A.cols := by
  intro fuel
  induction fuel with
  | zero => intro s hx _ _; simpa [lsqrLoop] using hx
  | succ fuel ih =>
    intro s hx hv hw
    obtain ⟨hx2, hv2, hw2⟩ := lsqrStep_lengths sqrtF A s hx hv hw
    rw [lsqrLoop]
    exact ih (lsqrStep sqrtF A s) hx2 hv2 hw2

theorem lsqr_length (sqrtF : Frac → Frac) (A : QMat) (b : List QF)
    (maxIters : Nat) : (lsqr sqrtF A b maxIters).length = A.cols := by
  apply lsqrLoop_length <;>
    simp [lsqrInit, List.length_map, matmulTransposeVec_length]

theorem gdLoop_length (A : QMat) (alpha : QF) (b : List QF) :
    ∀ (fuel : Nat) (x : List QF), x.length = A.cols →
      (gdLoop A alpha b fuel x).length = A.cols := by
  intro fuel
  induction fuel with
  | zero => intro x hx; simpa [gdLoop] using hx
  | succ fuel ih =>
    intro x hx
    rw [gdLoop]
    exact ih _ (by simp [gdStep, List.length_zipWith, matmulTransposeVec_length, hx])

/-- C6 (amended): no solver surfaces division by a zero norm or zero
denominator as an error — every solver unconditionally returns a plain
vector of length `A.cols`; the unguarded divisions instead produce
non-finite values that flow into the returned solution (see the
counterexample).  The only guarded division is the plain-CG denominator,
which triggers the regularized restart rather than an error. -/
theorem c6_solvers_no_error_channel (sqrtF : Frac → Frac) (A : QMat)
    (b : List QF) (iters : Nat) (alg : PIAlg) :
    (pseudoInverseSolve sqrtF A b iters alg).length = A.cols := by
  cases alg with
  | gradientDescent alpha =>
    exact gdLoop_length A alpha b iters _ (by simp)
  | lsqr => exact lsqr_length sqrtF A b iters
  | conjugateGradient => exact conjugateGradient_length sqrtF A b iters

/-- C6 counterexample: LSQR on the 1x1 identity with `b = 0` divides by the
zero norm `‖b‖` (`0/0 = NaN`), and the poisoned values propagate: the
solver silently returns the non-finite solution `[none]` instead of
surfacing a domain error. -/
theorem c6_solvers_no_error_channel_counterexample :
    lsqr fracSqrt cgExA [some fzero] 1 = [none] ∧
      ([none] : List QF) ≠ [some fzero] := by
  refine ⟨by decide, by decide⟩

/-! ### Spectral and condition-number estimators (`rugmat.rs`) -/

/-- The power-iteration loop of `spectral_norm_estimate`: apply, normalize,
re-apply, Rayleigh-style estimate, and return early once the estimate moves
by less than `tol`. -/
def spectralLoop (sqrtF : Frac → Frac) (A : QMat) (tol : Frac) :
    Nat → List QF → QF → QF
  | 0, _, lam => lam
  | fuel + 1, x, lam =>
    let y := matmulVec A x
    let x2 := (List.range A.cols).map
      (fun i => divQF (y.getD i none) (norm2Vec sqrtF y))
    let lamNew := dotList y (matmulVec A x2)
    if ltQF (absQF (subQF lamNew lam)) (some tol) then lamNew
    else spectralLoop sqrtF A tol fuel x2 lamNew

/-- Model of `spectral_norm_estimate`. -/
def spectralNormEstimate (sqrtF : Frac → Frac) (A : QMat) (maxIters : Nat)
    (tol : Frac) : QF :=
  spectralLoop sqrtF A tol maxIters (List.replicate A.cols (some fone)) (some fzero)

/-- The inverse-power-iteration loop of
`smallest_singular_value_estimate`: each application is 20 iterations of the
gradient-descent solver at step size `1e-3`. -/
def smallestLoop (sqrtF : Frac → Frac) (A : QMat) (tol : Frac) :
    Nat → List QF → QF → QF
  | 0, _, lam => lam
  | fuel + 1, x, lam =>
    let y := pseudoInverseSolve sqrtF A x 20 (PIAlg.gradientDescent (some ⟨1, 1000⟩))
    let x2 := (List.range A.cols).map
      (fun i => divQF (y.getD i none) (norm2Vec sqrtF y))
    let lamNew := dotList x2 (matmulVec A x2)
    if ltQF (absQF (subQF lamNew lam)) (some tol) then lamNew
    else smallestLoop sqrtF A tol fuel x2 lamNew

/-- Model of `smallest_singular_value_estimate`. -/
def smallestSingularValueEstimate (sqrtF : Frac → Frac) (A : QMat)
    (maxIters : Nat) (tol : Frac) : QF :=
  smallestLoop sqrtF A tol maxIters (List.replicate A.rows (some fone)) (some fzero)

/-- Model of `cond_estimate`: the panic on an exactly-zero smallest
singular value is modelled as `none`; otherwise the ratio of the two
estimates is returned. -/
def condEstimate (sqrtF : Frac → Frac) (A : QMat) (maxIters : Nat)
    (tol : Frac) : Option QF :=
  if smallestSingularValueEstimate sqrtF A maxIters tol = some fzero then none
  else some (divQF (spectralNormEstimate sqrtF A maxIters tol)
    (smallestSingularValueEstimate sqrtF A maxIters tol))

/-- C9: `cond_estimate` aborts (panics) exactly when the
smallest-singular-value estimate is exactly zero, and otherwise returns the
ratio of the spectral-norm estimate to the smallest-singular-value
estimate. -/
theorem c9_cond_estimate_fatal_iff_zero (sqrtF : Frac → Frac) (A : QMat)
    (maxIters : Nat) (tol : Frac) :
    (condEstimate sqrtF A maxIters tol = none ↔
      smallestSingularValueEstimate sqrtF A maxIters tol = some fzero) ∧
    condEstimate sqrtF A maxIters tol =
      (if smallestSingularValueEstimate sqrtF A maxIters tol = some fzero then none
       else some (divQF (spectralNormEstimate sqrtF A maxIters tol)
         (smallestSingularValueEstimate sqrtF A maxIters tol))) := by
  constructor
  · unfold condEstimate
    by_cases h : smallestSingularValueEstimate sqrtF A maxIters tol = some fzero
    · rw [if_pos h]
      simp [h]
    · rw [if_neg h]
      simp [h]
  · rfl

end Rugmat
